import Mathlib

/-!
Verification of the GUI draw-group batching system of the bsf framework
(`GUIDrawGroups` / `GUIWidget`, declared in
Source/Foundation/bsfEngine/GUI/BsGUIWidget.h) and of the scripting glue in
Source/SBansheeEngine/Source/BsScriptSerializableProperty.cpp.

The repository excerpt contains the full declarations of the draw-group engine
(its state structures GUIGroupElement, GUIMesh, GUIDrawGroup and the fields of
GUIWidget) but not the bodies of its member functions; where a body is missing
the corresponding Lean definition is modelled from the specification document
and says so in its doc comment.
-/

set_option maxHeartbeats 1000000

namespace BsfGui

/-- Size of the full depth space covered by draw groups.  The specification
states that depth values are clamped to a fixed numeric range so that
minDepth + depthRange never overflows; depths are UINT32 values in the source,
so the full space is [0, 2^32). -/
def fullDepthRange : Nat := 4294967296

/-- One render sub-element of a GUI element: a visibility flag, the sprite
material it is drawn with, the line/triangle mode, and the number of indices
its geometry contributes. -/
structure SubElement where
  visible : Bool
  material : Nat
  isLine : Bool
  indexCount : Nat
deriving DecidableEq

/-- Rectangle with integer position and size (Rect2I in the source). -/
structure Rect2I where
  x : Int
  y : Int
  width : Int
  height : Int
deriving DecidableEq

/-- The empty rectangle. -/
def Rect2I.empty : Rect2I := ⟨0, 0, 0, 0⟩

/-- Grows a rectangle so that it encompasses a second rectangle. -/
def Rect2I.encompass (a b : Rect2I) : Rect2I :=
  let nx := min a.x b.x
  let ny := min a.y b.y
  ⟨nx, ny, max (a.x + a.width) (b.x + b.width) - nx,
           max (a.y + a.height) (b.y + b.height) - ny⟩

/-- Modelled from the spec: the view of a GUIElement consumed by the draw-group
engine (the GUIElement class itself is outside the excerpt): an identity
(standing for pointer identity), a sorting depth, screen-space bounds, the
cacheable flag and the list of render sub-elements. -/
structure Element where
  id : Nat
  depth : Nat
  bounds : Rect2I
  cacheable : Bool
  subElements : List SubElement
deriving DecidableEq

/-- Single element in a GUIDrawGroup: an element paired with the index of one
of its render sub-elements (struct GUIGroupElement in the source). -/
structure GUIGroupElement where
  element : Element
  renderElement : Nat
deriving DecidableEq

/-- Data required for rendering a single GUI mesh: a contiguous index range
together with the material and line/triangle mode (struct GUIMesh in the
source; the SpriteMaterialInfo payload plays no role in the claims and the
material is modelled by its identity). -/
structure GUIMesh where
  indexOffset : Nat
  indexCount : Nat
  material : Nat
  isLine : Bool
deriving DecidableEq

/-- Holds information about a set of GUI elements that can be drawn together
(struct GUIDrawGroup in the source, with the field defaults of the source; the
output texture handle is modelled by an optional identifier). -/
structure GUIDrawGroup where
  id : Nat := 0
  depthRange : Nat := 0
  minDepth : Nat := 0
  dirtyBounds : Bool := true
  needsRedraw : Bool := true
  bounds : Rect2I := Rect2I.empty
  cachedElements : List GUIGroupElement := []
  nonCachedElements : List GUIGroupElement := []
  meshes : List GUIMesh := []
  outputTexture : Option Nat := none
deriving DecidableEq

instance : Inhabited GUIDrawGroup := ⟨{}⟩

/-- State of the draw-group engine (class GUIDrawGroups in the source): the
list of draw groups (mEntries) and the next draw-group id (mNextDrawGroupId).
The two shared meshes (mTriangleMesh/mLineMesh) are GPU resources outside the
scope of the claims. -/
@[ext]
structure GUIDrawGroups where
  entries : List GUIDrawGroup
  nextDrawGroupId : Nat
deriving DecidableEq

/-- All group elements of a group, cached elements first, then non-cached. -/
def elemsOf (g : GUIDrawGroup) : List GUIGroupElement :=
  g.cachedElements ++ g.nonCachedElements

/-- Depth d lies inside the half-open depth range of the group. -/
def inRange (g : GUIDrawGroup) (d : Nat) : Prop :=
  g.minDepth ≤ d ∧ d < g.minDepth + g.depthRange

instance (g : GUIDrawGroup) (d : Nat) : Decidable (inRange g d) := by
  unfold inRange; infer_instance

/-- Modelled from the spec: element depth values are clamped to a fixed
numeric range so that minDepth + depthRange never overflows. -/
def clampDepth (e : Element) : Element :=
  { e with depth := min e.depth (fullDepthRange - 1) }

/-- The group entries contributed by an element: one per visible render
sub-element, in sub-element order. -/
def visibleGroupElements (e : Element) : List GUIGroupElement :=
  (e.subElements.enum.filter (fun p => p.2.visible)).map (fun p => ⟨e, p.1⟩)

/-- Inserts the visible sub-elements of an element into a group, into
cachedElements or nonCachedElements depending on the cacheable flag, and marks
the group bounds dirty and in need of a redraw. -/
def insertElement (e : Element) (g : GUIDrawGroup) : GUIDrawGroup :=
  if e.cacheable then
    { g with cachedElements := g.cachedElements ++ visibleGroupElements e,
             dirtyBounds := true, needsRedraw := true }
  else
    { g with nonCachedElements := g.nonCachedElements ++ visibleGroupElements e,
             dirtyBounds := true, needsRedraw := true }

/-- Walks the group list and inserts the element into the first group whose
depth range contains the element depth. -/
def addAux (e : Element) : List GUIDrawGroup → List GUIDrawGroup
  | [] => []
  | g :: rest =>
    if inRange g e.depth then insertElement e g :: rest
    else g :: addAux e rest

/-- Modelled from the spec: GUIDrawGroups::add (body not in the excerpt).
Registers a new element in the set of draw groups: all visible render
sub-elements of the element are inserted into the group whose depth range
contains the clamped element depth; when no groups exist yet, a fresh group
covering the full depth space is created first. -/
def add (e : Element) (s : GUIDrawGroups) : GUIDrawGroups :=
  let e1 := clampDepth e
  match s.entries with
  | [] =>
    { entries := [insertElement e1
        { id := s.nextDrawGroupId, depthRange := fullDepthRange, minDepth := 0 }],
      nextDrawGroupId := s.nextDrawGroupId + 1 }
  | g :: gs => { s with entries := addAux e1 (g :: gs) }

/-- The group holds at least one sub-element of the given element (matching on
element identity, as the source matches on the element pointer). -/
def containsElem (e : Element) (g : GUIDrawGroup) : Prop :=
  ∃ ge ∈ elemsOf g, ge.element.id = e.id

instance (e : Element) (g : GUIDrawGroup) : Decidable (containsElem e g) := by
  unfold containsElem; infer_instance

/-- Removes every group element referencing the given element from the group
and marks the group dirty. -/
def clearElement (e : Element) (g : GUIDrawGroup) : GUIDrawGroup :=
  { g with cachedElements := g.cachedElements.filter (fun ge => ge.element.id != e.id),
           nonCachedElements := g.nonCachedElements.filter (fun ge => ge.element.id != e.id),
           dirtyBounds := true, needsRedraw := true }

/-- The group holds no elements at all. -/
def groupEmpty (g : GUIDrawGroup) : Bool :=
  g.cachedElements.isEmpty && g.nonCachedElements.isEmpty

/-- Merges the depth range of an emptied group into the group right after it,
so that the group ranges stay contiguous. -/
def absorbInto (src dst : GUIDrawGroup) : GUIDrawGroup :=
  { dst with minDepth := src.minDepth, depthRange := src.depthRange + dst.depthRange }

/-- Walks the group list; in the group holding the element, all of its group
elements are removed; a group emptied this way is removed from the list and
its depth range is merged into its neighbour (a sole remaining group is kept
so that the depth space stays covered). -/
def removeAux (e : Element) : List GUIDrawGroup → List GUIDrawGroup
  | [] => []
  | g :: rest =>
    if containsElem e g then
      if groupEmpty (clearElement e g) then
        match rest with
        | [] => [clearElement e g]
        | g2 :: rest2 => absorbInto (clearElement e g) g2 :: rest2
      else clearElement e g :: rest
    else g :: removeAux e rest

/-- Modelled from the spec: GUIDrawGroups::remove (body not in the excerpt).
Removes an element from the set of draw groups; a no-op when the element is
not tracked. -/
def remove (e : Element) (s : GUIDrawGroups) : GUIDrawGroups :=
  { s with entries := removeAux e s.entries }

/-- Modelled from the spec: GUIDrawGroups::notifyContentDirty (body not in the
excerpt).  Marks the group owning the element as needing a redraw; a no-op for
untracked elements.  A content change implies a mesh rebuild. -/
def notifyContentDirty (e : Element) (s : GUIDrawGroups) : GUIDrawGroups :=
  { s with entries :=
      s.entries.map (fun g => if containsElem e g then { g with needsRedraw := true } else g) }

/-- Modelled from the spec: GUIDrawGroups::notifyMeshDirty (body not in the
excerpt).  Marks the group owning the element as needing a redraw; a no-op for
untracked elements. -/
def notifyMeshDirty (e : Element) (s : GUIDrawGroups) : GUIDrawGroups :=
  { s with entries :=
      s.entries.map (fun g => if containsElem e g then { g with needsRedraw := true } else g) }

/-- Splits one group at the given depth: the first half keeps the elements
with depth below the boundary and the range below it, the second half is a
fresh group receiving the remaining elements and the range from the boundary
up. -/
def splitGroup (d : Nat) (newId : Nat) (g : GUIDrawGroup) : GUIDrawGroup × GUIDrawGroup :=
  ({ g with depthRange := d - g.minDepth,
            cachedElements := g.cachedElements.filter (fun ge => decide (ge.element.depth < d)),
            nonCachedElements := g.nonCachedElements.filter (fun ge => decide (ge.element.depth < d)),
            dirtyBounds := true, needsRedraw := true },
   { id := newId, minDepth := d, depthRange := g.minDepth + g.depthRange - d,
     dirtyBounds := true, needsRedraw := true,
     cachedElements := g.cachedElements.filter (fun ge => decide (d ≤ ge.element.depth)),
     nonCachedElements := g.nonCachedElements.filter (fun ge => decide (d ≤ ge.element.depth)) })

/-- Replaces the group at the given index with the two halves of its split. -/
def splitAux (d newId : Nat) : Nat → List GUIDrawGroup → List GUIDrawGroup
  | _, [] => []
  | 0, g :: rest => (splitGroup d newId g).1 :: (splitGroup d newId g).2 :: rest
  | i + 1, g :: rest => g :: splitAux d newId i rest

/-- Modelled from the spec: GUIDrawGroups::split (body not in the excerpt).
Splits the draw group at the given index at the specified depth; the new
second half is inserted right after the first and is also returned. -/
def split (groupIdx d : Nat) (s : GUIDrawGroups) : GUIDrawGroups × GUIDrawGroup :=
  match s.entries.get? groupIdx with
  | none => (s, default)
  | some g =>
    ({ entries := splitAux d s.nextDrawGroupId groupIdx s.entries,
       nextDrawGroupId := s.nextDrawGroupId + 1 },
     (splitGroup d s.nextDrawGroupId g).2)

/-- The sub-element referenced by a group element, when its index is valid. -/
def subElementOf (ge : GUIGroupElement) : Option SubElement :=
  ge.element.subElements.get? ge.renderElement

/-- A sub-element can be appended to the mesh draw range: same material and
same line/triangle mode. -/
def meshMatches (m : GUIMesh) (sub : SubElement) : Bool :=
  m.material == sub.material && m.isLine == sub.isLine

/-- Mesh-list builder; the accumulator holds the draw ranges built so far in
reverse order, so the head is the range currently being extended. -/
def buildMeshesAux : List GUIGroupElement → Nat → List GUIMesh → List GUIMesh
  | [], _, acc => acc
  | ge :: rest, offset, acc =>
    match subElementOf ge with
    | none => buildMeshesAux rest offset acc
    | some sub =>
      match acc with
      | [] => buildMeshesAux rest (offset + sub.indexCount)
          [⟨offset, sub.indexCount, sub.material, sub.isLine⟩]
      | m :: ms =>
        if meshMatches m sub then
          buildMeshesAux rest (offset + sub.indexCount)
            ({ m with indexCount := m.indexCount + sub.indexCount } :: ms)
        else
          buildMeshesAux rest (offset + sub.indexCount)
            (⟨offset, sub.indexCount, sub.material, sub.isLine⟩ :: m :: ms)

/-- Two draw ranges differ in material or in line/triangle mode, so they could
not have been coalesced into one. -/
def diffMaterial (m1 m2 : GUIMesh) : Prop :=
  ¬(m1.material = m2.material ∧ m1.isLine = m2.isLine)

/-- Modelled from the spec: the per-group part of GUIDrawGroups::rebuildMeshes
(body not in the excerpt) — walks the given group elements in order,
coalescing consecutive sub-elements that share material and line/triangle
mode into a single draw range. -/
def buildMeshes (l : List GUIGroupElement) : List GUIMesh :=
  (buildMeshesAux l 0 []).reverse

/-- Modelled from the spec: GUIDrawGroups::calculateBounds (body not in the
excerpt) — the union of the bounds of all contained elements; an empty
rectangle for an empty group. -/
def calculateBounds (g : GUIDrawGroup) : Rect2I :=
  match (elemsOf g).map (fun ge => ge.element.bounds) with
  | [] => Rect2I.empty
  | r :: rs => rs.foldl Rect2I.encompass r

/-- Rebuild of one dirty group: recompute the bounds when they are dirty, then
rebuild the mesh list from cachedElements followed by nonCachedElements, and
clear both dirty flags. -/
def rebuildGroup (g : GUIDrawGroup) : GUIDrawGroup :=
  let g1 := if g.dirtyBounds then { g with bounds := calculateBounds g } else g
  { g1 with meshes := buildMeshes (elemsOf g1), needsRedraw := false, dirtyBounds := false }

/-- Modelled from the spec: GUIDrawGroups::rebuildDirty (body not in the
excerpt) — every group whose needsRedraw flag is set is rebuilt; the other
groups are left exactly as they are. -/
def rebuildDirty (s : GUIDrawGroups) : GUIDrawGroups :=
  { s with entries := s.entries.map (fun g => if g.needsRedraw then rebuildGroup g else g) }

/-- Modelled from the spec: the initial engine state established by the
GUIDrawGroups constructor (body not in the excerpt) — a single empty draw
group covering the full depth space, so that the group ranges cover the depth
space from the start. -/
def initDrawGroups : GUIDrawGroups :=
  { entries := [{ id := 0, depthRange := fullDepthRange, minDepth := 0 }],
    nextDrawGroupId := 1 }

/-- The group ranges are contiguous starting at the given depth and ending
exactly at the top of the depth space: no overlaps and no gaps. -/
def contiguousFrom : Nat → List GUIDrawGroup → Bool
  | lo, [] => lo == fullDepthRange
  | lo, g :: gs => (g.minDepth == lo) && contiguousFrom (lo + g.depthRange) gs

/-- Every group element of every group in the list has its depth inside the
depth range of the group holding it. -/
def rangeOk (gs : List GUIDrawGroup) : Prop :=
  ∀ g ∈ gs, ∀ ge ∈ elemsOf g, inRange g ge.element.depth

instance (gs : List GUIDrawGroup) : Decidable (rangeOk gs) := by
  unfold rangeOk; infer_instance

/-- Every group element of every group has its depth inside the depth range of
the group holding it. -/
def elementsInRange (s : GUIDrawGroups) : Prop :=
  rangeOk s.entries

instance (s : GUIDrawGroups) : Decidable (elementsInRange s) := by
  unfold elementsInRange; infer_instance

/-- The engine invariant: group ranges tile the depth space and every tracked
element sits in the group whose range holds its depth. -/
def Invariant (s : GUIDrawGroups) : Prop :=
  contiguousFrom 0 s.entries = true ∧ elementsInRange s

instance (s : GUIDrawGroups) : Decidable (Invariant s) := by
  unfold Invariant; infer_instance

/-- A mutating engine call. -/
inductive GUIOp where
  | addOp (e : Element)
  | removeOp (e : Element)
  | splitOp (groupIdx d : Nat)

/-- Applies one mutating call to the engine state. -/
def applyOp : GUIOp → GUIDrawGroups → GUIDrawGroups
  | .addOp e, s => add e s
  | .removeOp e, s => remove e s
  | .splitOp i d, s => (split i d s).1

/-- Precondition of a mutating call: add and remove are total; split needs a
valid group index and a boundary depth inside that group range. -/
def validOp : GUIOp → GUIDrawGroups → Prop
  | .addOp _, _ => True
  | .removeOp _, _ => True
  | .splitOp i d, s => ∃ h : i < s.entries.length,
      (s.entries.get ⟨i, h⟩).minDepth ≤ d ∧
      d ≤ (s.entries.get ⟨i, h⟩).minDepth + (s.entries.get ⟨i, h⟩).depthRange

/-- Every depth of the depth space lies in the range of exactly one group. -/
def PartitionOk (s : GUIDrawGroups) : Prop :=
  ∀ d, d < fullDepthRange → ∃! i : Fin s.entries.length, inRange (s.entries.get i) d

/-- A given element value is held by at most one group. -/
def UniqueMembership (s : GUIDrawGroups) : Prop :=
  ∀ i j : Fin s.entries.length,
    ∀ ge1 ∈ elemsOf (s.entries.get i), ∀ ge2 ∈ elemsOf (s.entries.get j),
      ge1.element = ge2.element → i = j

/-! ### The widget container (GUIWidget) -/

/-- 3-component vector (Vector3 in the source); integer components suffice for
the claims about default values. -/
structure Vector3 where
  x : Int
  y : Int
  z : Int
deriving DecidableEq

/-- Quaternion; the identity is (0, 0, 0, 1). -/
structure Quaternion where
  x : Int
  y : Int
  z : Int
  w : Int
deriving DecidableEq

/-- 4x4 matrix (Matrix4 in the source), as a row-major grid. -/
structure Matrix4 where
  rows : List (List Int)
deriving DecidableEq

/-- The identity matrix. -/
def Matrix4.identity : Matrix4 :=
  ⟨[[1, 0, 0, 0], [0, 1, 0, 0], [0, 0, 1, 0], [0, 0, 0, 1]]⟩

/-- The GUIWidget state the claims are about, with the member initializers of
the source header: mDepth = 128, mIsActive = true, mPosition = BsZero,
mRotation = BsIdentity, mScale = Vector3::ONE, mTransform = BsIdentity.  The
camera, skin, panel and element registry are collaborators outside the
claims; the panel and navigation registration are tracked as flags. -/
structure GUIWidget where
  depth : Nat := 128
  isActive : Bool := true
  position : Vector3 := ⟨0, 0, 0⟩
  rotation : Quaternion := ⟨0, 0, 0, 1⟩
  scale : Vector3 := ⟨1, 1, 1⟩
  transform : Matrix4 := Matrix4.identity
  rootPanelCreated : Bool := false
  navRegistered : Bool := false
deriving DecidableEq

/-- GUIWidget::getDepth from the source header: returns mDepth. -/
def GUIWidget.getDepth (w : GUIWidget) : Nat := w.depth

/-- GUIWidget::getIsActive from the source header: returns mIsActive. -/
def GUIWidget.getIsActive (w : GUIWidget) : Bool := w.isActive

/-- GUIWidget::getWorldTfrm from the source header: returns mTransform. -/
def GUIWidget.getWorldTfrm (w : GUIWidget) : Matrix4 := w.transform

/-- Modelled from the spec: GUIWidget::construct (body not in the excerpt)
finishes the shared constructor setup — creates the root panel sized to the
viewport and registers with the navigation system; it does not touch the
depth, the active flag or the transform state. -/
def GUIWidget.construct (w : GUIWidget) : GUIWidget :=
  { w with rootPanelCreated := true, navRegistered := true }

/-- A freshly constructed widget: the member initializers of the header
followed by construct, before any setter runs. -/
def newGUIWidget : GUIWidget := GUIWidget.construct {}

/-! ### The double-buffered dirty-content set of the widget -/

/-- The pair of dirty-content sets of the widget (mDirtyContents and
mDirtyContentsTemp in the source header); elements are modelled by their
identity. -/
structure DirtyContents where
  live : List Nat
  temp : List Nat
deriving DecidableEq

/-- Set-like insertion into a dirty set (the sets are Set<GUIElement*> in the
source): inserting a member again has no effect. -/
def insertDirty (x : Nat) (l : List Nat) : List Nat :=
  if x ∈ l then l else l ++ [x]

/-- Modelled from the spec: the consuming pass over the widget dirty-content
set (the pass body is not in the excerpt; the header only declares the two
sets).  The live and temp sets are swapped at the start of the pass, the old
live set is processed in order, every element dirtied by a processed element
(given by the dirtier function) is inserted into the set for the next pass,
and the processed buffer is cleared at the end.  Returns the list of elements
processed by this pass together with the new state. -/
def processPass (dirtier : Nat → List Nat) (s : DirtyContents) : List Nat × DirtyContents :=
  (s.live,
   { live := s.live.foldl (fun acc x => (dirtier x).foldl (fun a y => insertDirty y a) acc) s.temp,
     temp := [] })

/-! ### The scripting glue (BsScriptSerializableProperty.cpp) -/

/-- The scripting runtime seen by internal_CreateInstance: reflection types,
classes and registered serializable type infos are modelled by identifiers;
getTypeInfo returns none for classes without registered serializable type
info. -/
structure ScriptEnv where
  getClass : Nat → Nat
  findClass : Nat → Nat
  getTypeInfo : Nat → Option Nat

/-- Outcome of internal_CreateInstance: whether the not-serializable warning
was logged, and the type info the freshly allocated native instance was bound
to, when one was allocated. -/
structure CreateInstanceResult where
  warned : Bool
  constructed : Option Nat
deriving DecidableEq

/-- ScriptSerializableProperty::internal_CreateInstance from
BsScriptSerializableProperty.cpp: returns at once when the reflection type is
null; resolves the engine class and its serializable type info, logging a
warning and returning when there is none; otherwise allocates a native
instance bound to that type info. -/
def internal_CreateInstance (env : ScriptEnv) (reflType : Option Nat) : CreateInstanceResult :=
  match reflType with
  | none => { warned := false, constructed := none }
  | some rt =>
    match env.getTypeInfo (env.findClass (env.getClass rt)) with
    | none => { warned := true, constructed := none }
    | some ti => { warned := false, constructed := some ti }

/-! ### Concrete example data for the scenario parts and witnesses -/

/-- Example cacheable element at depth 0 with one visible sub-element. -/
def exElem1 : Element :=
  { id := 1, depth := 0, bounds := Rect2I.empty, cacheable := true,
    subElements := [{ visible := true, material := 7, isLine := false, indexCount := 6 }] }

/-- Example non-cacheable element at depth 0 with one visible sub-element. -/
def exElem2 : Element :=
  { id := 2, depth := 0, bounds := Rect2I.empty, cacheable := false,
    subElements := [{ visible := true, material := 7, isLine := false, indexCount := 6 }] }

/-- Example non-cacheable line element at depth 1000. -/
def exElem3 : Element :=
  { id := 3, depth := 1000, bounds := ⟨0, 0, 4, 4⟩, cacheable := false,
    subElements := [{ visible := true, material := 9, isLine := true, indexCount := 2 }] }

/-- Example scripting environment in which no class has serializable type
info. -/
def exScriptEnv : ScriptEnv :=
  { getClass := fun n => n, findClass := fun n => n, getTypeInfo := fun _ => none }

/-- Example scripting environment in which every class has serializable type
info. -/
def exScriptEnvAll : ScriptEnv :=
  { getClass := fun n => n, findClass := fun n => n, getTypeInfo := fun n => some n }

/-! ### Basic facts about contiguous depth ranges -/

theorem contiguousFrom_nil_iff (lo : Nat) :
    contiguousFrom lo [] = true ↔ lo = fullDepthRange := by
  simp [contiguousFrom]

theorem contiguousFrom_cons_iff (lo : Nat) (g : GUIDrawGroup) (gs : List GUIDrawGroup) :
    contiguousFrom lo (g :: gs) = true ↔
      g.minDepth = lo ∧ contiguousFrom (lo + g.depthRange) gs = true := by
  simp [contiguousFrom]

theorem contiguousFrom_le (lo : Nat) (gs : List GUIDrawGroup)
    (h : contiguousFrom lo gs = true) : lo ≤ fullDepthRange := by
  induction gs generalizing lo with
  | nil => exact le_of_eq ((contiguousFrom_nil_iff lo).1 h)
  | cons g gs ih =>
    have h2 := ((contiguousFrom_cons_iff lo g gs).1 h).2
    exact le_trans (Nat.le_add_right lo g.depthRange) (ih (lo + g.depthRange) h2)

theorem contiguousFrom_bounds (lo : Nat) (gs : List GUIDrawGroup)
    (h : contiguousFrom lo gs = true) :
    ∀ g ∈ gs, lo ≤ g.minDepth ∧ g.minDepth + g.depthRange ≤ fullDepthRange := by
  induction gs generalizing lo with
  | nil => intro g hg; cases hg
  | cons g0 gs ih =>
    intro g hg
    obtain ⟨hmin, htail⟩ := (contiguousFrom_cons_iff lo g0 gs).1 h
    rcases List.mem_cons.1 hg with hg | hg
    · subst hg
      exact ⟨le_of_eq hmin.symm, by
        rw [hmin]; exact contiguousFrom_le _ _ htail⟩
    · have := ih (lo + g0.depthRange) htail g hg
      exact ⟨le_trans (Nat.le_add_right lo g0.depthRange) this.1, this.2⟩

theorem contiguousFrom_exists (lo : Nat) (gs : List GUIDrawGroup)
    (h : contiguousFrom lo gs = true) :
    ∀ d, lo ≤ d → d < fullDepthRange → ∃ i : Fin gs.length, inRange (gs.get i) d := by
  induction gs generalizing lo with
  | nil =>
    intro d hlo hd
    rw [(contiguousFrom_nil_iff lo).1 h] at hlo
    exact absurd (lt_of_le_of_lt hlo hd) (lt_irrefl _)
  | cons g gs ih =>
    intro d hlo hd
    obtain ⟨hmin, htail⟩ := (contiguousFrom_cons_iff lo g gs).1 h
    by_cases hcase : d < lo + g.depthRange
    · exact ⟨⟨0, Nat.succ_pos _⟩, by
        constructor
        · rw [List.get]; omega
        · rw [List.get]; omega⟩
    · obtain ⟨⟨i, hi⟩, hir⟩ := ih (lo + g.depthRange) htail d (le_of_not_lt hcase) hd
      exact ⟨⟨i + 1, Nat.succ_lt_succ hi⟩, hir⟩

theorem contiguousFrom_unique (lo : Nat) (gs : List GUIDrawGroup)
    (h : contiguousFrom lo gs = true) :
    ∀ d, ∀ i j : Fin gs.length, inRange (gs.get i) d → inRange (gs.get j) d → i = j := by
  induction gs generalizing lo with
  | nil => intro d i _ _ _; exact absurd i.isLt (by simp)
  | cons g gs ih =>
    intro d i j hi hj
    obtain ⟨hmin, htail⟩ := (contiguousFrom_cons_iff lo g gs).1 h
    have hbounds := contiguousFrom_bounds _ _ htail
    rcases i with ⟨iv, hiv⟩
    rcases j with ⟨jv, hjv⟩
    cases iv with
    | zero =>
      cases jv with
      | zero => rfl
      | succ k =>
        exfalso
        have hjr : inRange (gs.get ⟨k, Nat.lt_of_succ_lt_succ hjv⟩) d := hj
        have hir : inRange g d := hi
        have hk := (hbounds (gs.get ⟨k, Nat.lt_of_succ_lt_succ hjv⟩) (List.get_mem _ _ _)).1
        have h1 : d < lo + g.depthRange := by
          have := hir.2; omega
        have h2 : lo + g.depthRange ≤ d := le_trans hk hjr.1
        omega
    | succ k =>
      cases jv with
      | zero =>
        exfalso
        have hir : inRange (gs.get ⟨k, Nat.lt_of_succ_lt_succ hiv⟩) d := hi
        have hjr : inRange g d := hj
        have hk := (hbounds (gs.get ⟨k, Nat.lt_of_succ_lt_succ hiv⟩) (List.get_mem _ _ _)).1
        have h1 : d < lo + g.depthRange := by
          have := hjr.2; omega
        have h2 : lo + g.depthRange ≤ d := le_trans hk hir.1
        omega
      | succ k2 =>
        have hv : k = k2 := congrArg Fin.val (ih (lo + g.depthRange) htail d
          ⟨k, Nat.lt_of_succ_lt_succ hiv⟩ ⟨k2, Nat.lt_of_succ_lt_succ hjv⟩ hi hj)
        exact Fin.ext (by simp [hv])

theorem partitionOk_of_contiguous (s : GUIDrawGroups)
    (h : contiguousFrom 0 s.entries = true) : PartitionOk s := by
  intro d hd
  obtain ⟨i, hi⟩ := contiguousFrom_exists 0 s.entries h d (Nat.zero_le d) hd
  exact ⟨i, hi, fun j hj => contiguousFrom_unique 0 s.entries h d j i hj hi⟩

theorem uniqueMembership_of_invariant (s : GUIDrawGroups)
    (h : Invariant s) : UniqueMembership s := by
  intro i j ge1 h1 ge2 h2 heq
  have hi : inRange (s.entries.get i) ge1.element.depth :=
    h.2 _ (List.get_mem _ _ _) ge1 h1
  have hj : inRange (s.entries.get j) ge1.element.depth := by
    rw [heq]; exact h.2 _ (List.get_mem _ _ _) ge2 h2
  exact contiguousFrom_unique 0 s.entries h.1 ge1.element.depth i j hi hj

/-! ### The invariant is preserved by add -/

theorem insertElement_minDepth (e : Element) (g : GUIDrawGroup) :
    (insertElement e g).minDepth = g.minDepth := by
  unfold insertElement; split <;> rfl

theorem insertElement_depthRange (e : Element) (g : GUIDrawGroup) :
    (insertElement e g).depthRange = g.depthRange := by
  unfold insertElement; split <;> rfl

theorem inRange_insertElement (e : Element) (g : GUIDrawGroup) (d : Nat) :
    inRange (insertElement e g) d ↔ inRange g d := by
  unfold inRange; rw [insertElement_minDepth, insertElement_depthRange]

theorem mem_elemsOf_insertElement (e : Element) (g : GUIDrawGroup) (ge : GUIGroupElement)
    (h : ge ∈ elemsOf (insertElement e g)) :
    ge ∈ elemsOf g ∨ ge ∈ visibleGroupElements e := by
  by_cases hc : e.cacheable = true <;>
    simp [insertElement, hc, elemsOf] at h ⊢ <;> tauto

theorem element_of_mem_visibleGroupElements (e : Element) (ge : GUIGroupElement)
    (h : ge ∈ visibleGroupElements e) : ge.element = e := by
  unfold visibleGroupElements at h
  obtain ⟨p, _, rfl⟩ := List.mem_map.1 h
  rfl

theorem addAux_contiguous (e : Element) (gs : List GUIDrawGroup) (lo : Nat)
    (h : contiguousFrom lo gs = true) : contiguousFrom lo (addAux e gs) = true := by
  induction gs generalizing lo with
  | nil => exact h
  | cons g gs ih =>
    obtain ⟨hmin, htail⟩ := (contiguousFrom_cons_iff lo g gs).1 h
    unfold addAux
    split
    · exact (contiguousFrom_cons_iff _ _ _).2
        ⟨by rw [insertElement_minDepth]; exact hmin,
         by rw [insertElement_depthRange]; exact htail⟩
    · exact (contiguousFrom_cons_iff _ _ _).2 ⟨hmin, ih _ htail⟩

theorem addAux_rangeOk (e : Element) (gs : List GUIDrawGroup)
    (h : rangeOk gs) : rangeOk (addAux e gs) := by
  induction gs with
  | nil => exact h
  | cons g gs ih =>
    have htail : rangeOk gs := fun g' hg' => h g' (List.mem_cons_of_mem _ hg')
    intro g2 hg2 ge hge
    unfold addAux at hg2
    split at hg2
    case isTrue hin =>
      rcases List.mem_cons.1 hg2 with rfl | hmem
      · rcases mem_elemsOf_insertElement e g ge hge with hm | hm
        · exact (inRange_insertElement _ _ _).2 (h g (List.mem_cons_self _ _) ge hm)
        · rw [inRange_insertElement, element_of_mem_visibleGroupElements e ge hm]
          exact hin
      · exact h g2 (List.mem_cons_of_mem _ hmem) ge hge
    case isFalse =>
      rcases List.mem_cons.1 hg2 with rfl | hmem
      · exact h g2 (List.mem_cons_self _ _) ge hge
      · exact ih htail g2 hmem ge hge

theorem clampDepth_lt (e : Element) : (clampDepth e).depth < fullDepthRange := by
  show min e.depth (fullDepthRange - 1) < fullDepthRange
  have h1 : min e.depth (fullDepthRange - 1) ≤ fullDepthRange - 1 := min_le_right _ _
  have h2 : (0 : Nat) < fullDepthRange := by decide
  omega

theorem add_invariant (e : Element) (s : GUIDrawGroups)
    (h : Invariant s) : Invariant (add e s) := by
  obtain ⟨entries, nid⟩ := s
  cases entries with
  | nil =>
    exact absurd ((contiguousFrom_nil_iff 0).1 h.1) (by decide)
  | cons g gs =>
    exact ⟨addAux_contiguous _ _ _ h.1, addAux_rangeOk _ _ h.2⟩

/-! ### The invariant is preserved by remove -/

theorem mem_elemsOf_clearElement (e : Element) (g : GUIDrawGroup) (ge : GUIGroupElement)
    (h : ge ∈ elemsOf (clearElement e g)) : ge ∈ elemsOf g := by
  unfold elemsOf clearElement at h
  unfold elemsOf
  simp only [List.mem_append, List.mem_filter] at h ⊢
  tauto

theorem inRange_clearElement (e : Element) (g : GUIDrawGroup) (d : Nat) :
    inRange (clearElement e g) d ↔ inRange g d := Iff.rfl

theorem removeAux_preserves (e : Element) (gs : List GUIDrawGroup) (lo : Nat)
    (hc : contiguousFrom lo gs = true) (hr : rangeOk gs) :
    contiguousFrom lo (removeAux e gs) = true ∧ rangeOk (removeAux e gs) := by
  induction gs generalizing lo with
  | nil => exact ⟨hc, hr⟩
  | cons g gs ih =>
    obtain ⟨hmin, htail⟩ := (contiguousFrom_cons_iff lo g gs).1 hc
    have hrg : ∀ ge ∈ elemsOf g, inRange g ge.element.depth := hr g (List.mem_cons_self _ _)
    have hrtail : rangeOk gs := fun g' hg' => hr g' (List.mem_cons_of_mem _ hg')
    by_cases h1 : containsElem e g
    · by_cases h2 : groupEmpty (clearElement e g)
      · cases gs with
        | nil =>
          simp only [removeAux, h1, if_true, h2]
          refine ⟨(contiguousFrom_cons_iff _ _ _).2 ⟨hmin, htail⟩, ?_⟩
          intro g2 hg2 ge hge
          rcases List.mem_cons.1 hg2 with rfl | hmem
          · exact (inRange_clearElement _ _ _).2 (hrg ge (mem_elemsOf_clearElement e g ge hge))
          · cases hmem
        | cons g2 rest2 =>
          simp only [removeAux, h1, if_true, h2]
          obtain ⟨hmin2, htail2⟩ := (contiguousFrom_cons_iff _ _ _).1 htail
          have hrg2 : ∀ ge ∈ elemsOf g2, inRange g2 ge.element.depth :=
            hrtail g2 (List.mem_cons_self _ _)
          have hrrest : rangeOk rest2 := fun g' hg' => hrtail g' (List.mem_cons_of_mem _ hg')
          refine ⟨?_, ?_⟩
          · refine (contiguousFrom_cons_iff _ _ _).2 ⟨hmin, ?_⟩
            show contiguousFrom (lo + (g.depthRange + g2.depthRange)) rest2 = true
            have harith : lo + (g.depthRange + g2.depthRange) =
                lo + g.depthRange + g2.depthRange := by omega
            rw [harith]
            exact htail2
          · intro g3 hg3 ge hge
            rcases List.mem_cons.1 hg3 with rfl | hmem
            · have hge2 : ge ∈ elemsOf g2 := hge
              have hin2 := hrg2 ge hge2
              constructor
              · show g.minDepth ≤ ge.element.depth
                have := hin2.1; omega
              · show ge.element.depth < g.minDepth + (g.depthRange + g2.depthRange)
                have := hin2.2; omega
            · exact hrrest g3 hmem ge hge
      · simp only [removeAux, h1, if_true, h2, if_false]
        refine ⟨(contiguousFrom_cons_iff _ _ _).2 ⟨hmin, htail⟩, ?_⟩
        intro g2 hg2 ge hge
        rcases List.mem_cons.1 hg2 with rfl | hmem
        · exact (inRange_clearElement _ _ _).2 (hrg ge (mem_elemsOf_clearElement e g ge hge))
        · exact hrtail g2 hmem ge hge
    · simp only [removeAux, h1, if_false]
      obtain ⟨ihc, ihr⟩ := ih (lo + g.depthRange) htail hrtail
      refine ⟨(contiguousFrom_cons_iff _ _ _).2 ⟨hmin, ihc⟩, ?_⟩
      intro g2 hg2 ge hge
      rcases List.mem_cons.1 hg2 with rfl | hmem
      · exact hrg ge hge
      · exact ihr g2 hmem ge hge

theorem remove_invariant (e : Element) (s : GUIDrawGroups)
    (h : Invariant s) : Invariant (remove e s) := by
  obtain ⟨h1, h2⟩ := removeAux_preserves e s.entries 0 h.1 h.2
  exact ⟨h1, h2⟩

/-! ### The invariant is preserved by split -/

theorem splitAux_preserves (d newId : Nat) (gs : List GUIDrawGroup) (i lo : Nat)
    (hc : contiguousFrom lo gs = true) (hr : rangeOk gs) (hi : i < gs.length)
    (hd1 : (gs.get ⟨i, hi⟩).minDepth ≤ d)
    (hd2 : d ≤ (gs.get ⟨i, hi⟩).minDepth + (gs.get ⟨i, hi⟩).depthRange) :
    contiguousFrom lo (splitAux d newId i gs) = true ∧ rangeOk (splitAux d newId i gs) := by
  induction gs generalizing i lo with
  | nil => exact absurd hi (by simp)
  | cons g gs ih =>
    obtain ⟨hmin, htail⟩ := (contiguousFrom_cons_iff lo g gs).1 hc
    have hrg : ∀ ge ∈ elemsOf g, inRange g ge.element.depth := hr g (List.mem_cons_self _ _)
    have hrtail : rangeOk gs := fun g' hg' => hr g' (List.mem_cons_of_mem _ hg')
    cases i with
    | zero =>
      have hd1g : g.minDepth ≤ d := hd1
      have hd2g : d ≤ g.minDepth + g.depthRange := hd2
      refine ⟨?_, ?_⟩
      · show contiguousFrom lo
          ((splitGroup d newId g).1 :: (splitGroup d newId g).2 :: gs) = true
        refine (contiguousFrom_cons_iff _ _ _).2 ⟨hmin, ?_⟩
        show contiguousFrom (lo + (d - g.minDepth)) ((splitGroup d newId g).2 :: gs) = true
        have e1 : lo + (d - g.minDepth) = d := by omega
        rw [e1]
        refine (contiguousFrom_cons_iff _ _ _).2 ⟨rfl, ?_⟩
        show contiguousFrom (d + (g.minDepth + g.depthRange - d)) gs = true
        have e2 : d + (g.minDepth + g.depthRange - d) = lo + g.depthRange := by omega
        rw [e2]
        exact htail
      · intro g2 hg2 ge hge
        rcases List.mem_cons.1 hg2 with rfl | hmem
        · have hin : ge ∈ elemsOf g ∧ ge.element.depth < d := by
            have : ge ∈ (elemsOf g).filter (fun x => decide (x.element.depth < d)) := by
              have hsame : elemsOf (splitGroup d newId g).1 =
                  (elemsOf g).filter (fun x => decide (x.element.depth < d)) := by
                unfold elemsOf splitGroup
                simp [List.filter_append]
              rw [hsame] at hge
              exact hge
            have hmf := List.mem_filter.1 this
            exact ⟨hmf.1, of_decide_eq_true hmf.2⟩
          have hgr := hrg ge hin.1
          constructor
          · show g.minDepth ≤ ge.element.depth
            exact hgr.1
          · show ge.element.depth < g.minDepth + (d - g.minDepth)
            have := hin.2; omega
        · rcases List.mem_cons.1 hmem with rfl | hmem2
          · have hin : ge ∈ elemsOf g ∧ d ≤ ge.element.depth := by
              have : ge ∈ (elemsOf g).filter (fun x => decide (d ≤ x.element.depth)) := by
                have hsame : elemsOf (splitGroup d newId g).2 =
                    (elemsOf g).filter (fun x => decide (d ≤ x.element.depth)) := by
                  unfold elemsOf splitGroup
                  simp [List.filter_append]
                rw [hsame] at hge
                exact hge
              have hmf := List.mem_filter.1 this
              exact ⟨hmf.1, of_decide_eq_true hmf.2⟩
            have hgr := hrg ge hin.1
            constructor
            · show d ≤ ge.element.depth
              exact hin.2
            · show ge.element.depth < d + (g.minDepth + g.depthRange - d)
              have := hgr.2; omega
          · exact hrtail g2 hmem2 ge hge
    | succ k =>
      have hk : k < gs.length := Nat.lt_of_succ_lt_succ hi
      obtain ⟨ihc, ihr⟩ := ih k (lo + g.depthRange) htail hrtail hk hd1 hd2
      refine ⟨(contiguousFrom_cons_iff _ _ _).2 ⟨hmin, ihc⟩, ?_⟩
      intro g2 hg2 ge hge
      rcases List.mem_cons.1 hg2 with rfl | hmem
      · exact hrg ge hge
      · exact ihr g2 hmem ge hge

/-- Positional description of splitAux: the group at the index is replaced by
the two halves of its split, everything else stays in place. -/
theorem splitAux_eq (d newId : Nat) (gs : List GUIDrawGroup) (i : Nat) (hi : i < gs.length) :
    splitAux d newId i gs = gs.take i ++
      (splitGroup d newId (gs.get ⟨i, hi⟩)).1 ::
      (splitGroup d newId (gs.get ⟨i, hi⟩)).2 :: gs.drop (i + 1) := by
  induction gs generalizing i with
  | nil => exact absurd hi (by simp)
  | cons g gs ih =>
    cases i with
    | zero => rfl
    | succ k =>
      have hk : k < gs.length := Nat.lt_of_succ_lt_succ hi
      show g :: splitAux d newId k gs = g :: (gs.take k ++ _)
      rw [ih k hk]
      rfl

theorem split_invariant (i d : Nat) (s : GUIDrawGroups) (h : Invariant s)
    (hi : i < s.entries.length)
    (hd1 : (s.entries.get ⟨i, hi⟩).minDepth ≤ d)
    (hd2 : d ≤ (s.entries.get ⟨i, hi⟩).minDepth + (s.entries.get ⟨i, hi⟩).depthRange) :
    Invariant (split i d s).1 := by
  have hget : s.entries.get? i = some (s.entries.get ⟨i, hi⟩) := List.get?_eq_get hi
  obtain ⟨h1, h2⟩ := splitAux_preserves d s.nextDrawGroupId s.entries i 0 h.1 h.2 hi hd1 hd2
  unfold split
  rw [hget]
  exact ⟨h1, h2⟩

theorem applyOp_invariant (op : GUIOp) (s : GUIDrawGroups)
    (h : Invariant s) (hv : validOp op s) : Invariant (applyOp op s) := by
  cases op with
  | addOp e => exact add_invariant e s h
  | removeOp e => exact remove_invariant e s h
  | splitOp i d =>
    obtain ⟨hi, hd1, hd2⟩ := hv
    exact split_invariant i d s h hi hd1 hd2

/-! ### Further structural helper lemmas -/

theorem entries_ne_nil_of_invariant (s : GUIDrawGroups) (h : Invariant s) :
    s.entries ≠ [] := by
  intro hnil
  exact absurd ((contiguousFrom_nil_iff 0).1 (hnil ▸ h.1)) (by decide)

theorem add_entries_of_ne_nil (e : Element) (s : GUIDrawGroups) (h : s.entries ≠ []) :
    (add e s).entries = addAux (clampDepth e) s.entries := by
  obtain ⟨entries, nid⟩ := s
  cases entries with
  | nil => exact absurd rfl h
  | cons g gs => rfl

theorem addAux_spec (e : Element) (gs : List GUIDrawGroup)
    (hex : ∃ i : Fin gs.length, inRange (gs.get i) e.depth) :
    ∃ i : Fin gs.length, inRange (gs.get i) e.depth ∧
      addAux e gs = gs.set i.val (insertElement e (gs.get i)) := by
  induction gs with
  | nil => obtain ⟨i, _⟩ := hex; exact absurd i.isLt (by simp)
  | cons g gs ih =>
    by_cases hg : inRange g e.depth
    · refine ⟨⟨0, Nat.succ_pos _⟩, hg, ?_⟩
      show addAux e (g :: gs) = insertElement e g :: gs
      unfold addAux
      rw [if_pos hg]
    · have hex2 : ∃ i : Fin gs.length, inRange (gs.get i) e.depth := by
        obtain ⟨⟨iv, hiv⟩, hir⟩ := hex
        cases iv with
        | zero => exact absurd hir hg
        | succ k => exact ⟨⟨k, Nat.lt_of_succ_lt_succ hiv⟩, hir⟩
      obtain ⟨⟨k, hk⟩, hir, heq⟩ := ih hex2
      refine ⟨⟨k + 1, Nat.succ_lt_succ hk⟩, hir, ?_⟩
      show addAux e (g :: gs) = (g :: gs).set (k + 1) (insertElement e (gs.get ⟨k, hk⟩))
      unfold addAux
      rw [if_neg hg, heq]
      rfl

theorem removeAux_id (e : Element) (gs : List GUIDrawGroup)
    (h : ∀ g ∈ gs, ¬containsElem e g) : removeAux e gs = gs := by
  induction gs with
  | nil => rfl
  | cons g gs ih =>
    have hg : ¬containsElem e g := h g (List.mem_cons_self _ _)
    show removeAux e (g :: gs) = g :: gs
    simp only [removeAux, hg, if_false]
    rw [ih (fun g' hg' => h g' (List.mem_cons_of_mem _ hg'))]

/-! ### Claim C1 -/

/-- C1: after any mutating engine call (add, remove or split) completes, the
half-open depth ranges of the draw groups partition the full depth space —
every depth below the top of the depth space lies in the range of exactly one
group — and every tracked element lies in a group whose range holds its depth
and in only one group. -/
theorem c1_depth_ranges_partition (s : GUIDrawGroups) (op : GUIOp)
    (h : Invariant s) (hv : validOp op s) :
    Invariant (applyOp op s) ∧ PartitionOk (applyOp op s) ∧
      elementsInRange (applyOp op s) ∧ UniqueMembership (applyOp op s) := by
  have h2 := applyOp_invariant op s h hv
  exact ⟨h2, partitionOk_of_contiguous _ h2.1, h2.2, uniqueMembership_of_invariant _ h2⟩

theorem c1_depth_ranges_partition_witness :
    Invariant (applyOp (GUIOp.addOp exElem1) initDrawGroups) ∧
      PartitionOk (applyOp (GUIOp.addOp exElem1) initDrawGroups) ∧
      elementsInRange (applyOp (GUIOp.addOp exElem1) initDrawGroups) ∧
      UniqueMembership (applyOp (GUIOp.addOp exElem1) initDrawGroups) :=
  c1_depth_ranges_partition initDrawGroups (GUIOp.addOp exElem1) (by decide) trivial

/-! ### Claim C5 -/

/-- C5: split divides the group at the given index at the boundary depth: the
original group keeps exactly its elements with depth below the boundary and
the part of its range below it, a newly created group inserted immediately
after it receives exactly the elements with depth at or above the boundary and
the rest of the range, and split returns that new second group. -/
theorem c5_split_divides (s : GUIDrawGroups) (i d : Nat) (hi : i < s.entries.length) :
    (split i d s).1.entries = s.entries.take i ++
        (splitGroup d s.nextDrawGroupId (s.entries.get ⟨i, hi⟩)).1 ::
        (split i d s).2 :: s.entries.drop (i + 1) ∧
      (split i d s).2 = (splitGroup d s.nextDrawGroupId (s.entries.get ⟨i, hi⟩)).2 ∧
      (∀ g : GUIDrawGroup,
        (splitGroup d s.nextDrawGroupId g).1.cachedElements =
          g.cachedElements.filter (fun ge => decide (ge.element.depth < d)) ∧
        (splitGroup d s.nextDrawGroupId g).1.nonCachedElements =
          g.nonCachedElements.filter (fun ge => decide (ge.element.depth < d)) ∧
        (splitGroup d s.nextDrawGroupId g).2.cachedElements =
          g.cachedElements.filter (fun ge => decide (d ≤ ge.element.depth)) ∧
        (splitGroup d s.nextDrawGroupId g).2.nonCachedElements =
          g.nonCachedElements.filter (fun ge => decide (d ≤ ge.element.depth)) ∧
        (splitGroup d s.nextDrawGroupId g).1.minDepth = g.minDepth ∧
        (splitGroup d s.nextDrawGroupId g).2.minDepth = d) := by
  have hget : s.entries.get? i = some (s.entries.get ⟨i, hi⟩) := List.get?_eq_get hi
  refine ⟨?_, ?_, fun g => ⟨rfl, rfl, rfl, rfl, rfl, rfl⟩⟩
  · show (split i d s).1.entries = _
    unfold split
    rw [hget]
    show splitAux d s.nextDrawGroupId i s.entries = _
    rw [splitAux_eq d s.nextDrawGroupId s.entries i hi]
  · unfold split
    rw [hget]

theorem c5_split_divides_witness :
    (split 0 1000 (add exElem1 initDrawGroups)).2 =
      (splitGroup 1000 (add exElem1 initDrawGroups).nextDrawGroupId
        ((add exElem1 initDrawGroups).entries.get ⟨0, by decide⟩)).2 :=
  (c5_split_divides (add exElem1 initDrawGroups) 0 1000 (by decide)).2.1

/-! ### Claim C8 -/

/-- C8: remove, notifyContentDirty and notifyMeshDirty called with an element
no group tracks are no-ops: the entire engine state is left unchanged. -/
theorem c8_untracked_noop (s : GUIDrawGroups) (e : Element)
    (h : ∀ g ∈ s.entries, ¬containsElem e g) :
    remove e s = s ∧ notifyContentDirty e s = s ∧ notifyMeshDirty e s = s := by
  have hmap : s.entries.map
      (fun g => if containsElem e g then { g with needsRedraw := true } else g) = s.entries := by
    have := List.map_congr_left (l := s.entries)
      (f := fun g => if containsElem e g then { g with needsRedraw := true } else g)
      (g := id) (fun g hg => if_neg (h g hg))
    rw [this, List.map_id]
  refine ⟨?_, ?_, ?_⟩
  · show { s with entries := removeAux e s.entries } = s
    rw [removeAux_id e s.entries h]
  · show { s with entries := _ } = s
    rw [hmap]
  · show { s with entries := _ } = s
    rw [hmap]

theorem c8_untracked_noop_witness :
    remove exElem3 initDrawGroups = initDrawGroups ∧
      notifyContentDirty exElem3 initDrawGroups = initDrawGroups ∧
      notifyMeshDirty exElem3 initDrawGroups = initDrawGroups :=
  c8_untracked_noop initDrawGroups exElem3 (by decide)

/-! ### Claim C9 -/

/-- C9: internal_CreateInstance returns without constructing a native instance
when the supplied reflection type is null; when the resolved class has no
registered serializable type info it logs the warning and returns without
constructing; a native instance is allocated exactly when both the reflection
type and the type info are non-null. -/
theorem c9_createInstance_nullchecks (env : ScriptEnv) (reflType : Option Nat) :
    (reflType = none →
      internal_CreateInstance env reflType = { warned := false, constructed := none }) ∧
    (∀ rt, reflType = some rt →
      env.getTypeInfo (env.findClass (env.getClass rt)) = none →
      internal_CreateInstance env reflType = { warned := true, constructed := none }) ∧
    ((internal_CreateInstance env reflType).constructed ≠ none ↔
      ∃ rt, reflType = some rt ∧
        env.getTypeInfo (env.findClass (env.getClass rt)) ≠ none) := by
  refine ⟨?_, ?_, ?_⟩
  · rintro rfl; rfl
  · rintro rt rfl hti
    simp [internal_CreateInstance, hti]
  · cases reflType with
    | none => simp [internal_CreateInstance]
    | some rt =>
      cases hti : env.getTypeInfo (env.findClass (env.getClass rt)) with
      | none => simp [internal_CreateInstance, hti]
      | some ti => simp [internal_CreateInstance, hti]

theorem c9_createInstance_nullchecks_witness :
    internal_CreateInstance exScriptEnv (some 5) = { warned := true, constructed := none } :=
  (c9_createInstance_nullchecks exScriptEnv (some 5)).2.1 5 rfl rfl

/-! ### Claim C10 -/

/-- C10: a newly constructed GUIWidget, before any setter runs, reports depth
128 from getDepth, true from getIsActive, and the identity matrix from
getWorldTfrm, with zero position, identity rotation and unit scale. -/
theorem c10_widget_defaults :
    newGUIWidget.getDepth = 128 ∧ newGUIWidget.getIsActive = true ∧
      newGUIWidget.getWorldTfrm = Matrix4.identity ∧
      newGUIWidget.position = ⟨0, 0, 0⟩ ∧ newGUIWidget.rotation = ⟨0, 0, 0, 1⟩ ∧
      newGUIWidget.scale = ⟨1, 1, 1⟩ :=
  ⟨rfl, rfl, rfl, rfl, rfl, rfl⟩

/-! ### Claim C2 -/

theorem buildMeshesAux_chain (l : List GUIGroupElement) (offset : Nat) (acc : List GUIMesh)
    (h : List.Chain' diffMaterial acc) :
    List.Chain' diffMaterial (buildMeshesAux l offset acc) := by
  induction l generalizing offset acc with
  | nil => exact h
  | cons ge rest ih =>
    cases hsub : subElementOf ge with
    | none =>
      simp only [buildMeshesAux, hsub]
      exact ih offset acc h
    | some sub =>
      cases acc with
      | nil =>
        simp only [buildMeshesAux, hsub]
        exact ih _ _ (List.chain'_singleton _)
      | cons m ms =>
        simp only [buildMeshesAux, hsub]
        by_cases hm : meshMatches m sub = true
        · rw [if_pos hm]
          refine ih _ _ ?_
          rw [List.chain'_cons'] at h ⊢
          exact ⟨fun y hy => h.1 y hy, h.2⟩
        · rw [if_neg hm]
          refine ih _ _ ?_
          rw [List.chain'_cons']
          refine ⟨?_, h⟩
          intro y hy
          have hym : m = y := by simpa using hy
          subst hym
          intro hcontra
          apply hm
          show (m.material == sub.material && m.isLine == sub.isLine) = true
          have hmat : m.material = sub.material := hcontra.1.symm
          have hline : m.isLine = sub.isLine := hcontra.2.symm
          simp [hmat, hline]

/-- C2: after the meshes of a group are rebuilt from cachedElements followed
by nonCachedElements, no two adjacent GUIMesh draw ranges agree on both
material and line/triangle mode — consecutive sub-elements sharing material
and mode are always coalesced into a single draw range, never split into
separate GUIMesh entries. -/
theorem c2_meshes_coalesced (g : GUIDrawGroup) :
    List.Chain' diffMaterial (buildMeshes (elemsOf g)) := by
  unfold buildMeshes
  rw [List.chain'_reverse]
  have h := buildMeshesAux_chain (elemsOf g) 0 [] List.chain'_nil
  exact h.imp (fun a b hab => fun hc => hab ⟨hc.1.symm, hc.2.symm⟩)

/-! ### Claim C3 -/

theorem rebuildGroup_needsRedraw (g : GUIDrawGroup) :
    (rebuildGroup g).needsRedraw = false := rfl

theorem rebuildGroup_dirtyBounds (g : GUIDrawGroup) :
    (rebuildGroup g).dirtyBounds = false := rfl

/-- C3: calling rebuildDirty twice with no mutation in between equals calling
it once — the second call changes nothing, every group keeps the mesh list
produced by the first call, and after the first call every needsRedraw and
dirtyBounds flag is clear (for engine states where a group with dirty bounds
is also flagged for redraw, which every mutating call maintains). -/
theorem c3_rebuildDirty_idempotent (s : GUIDrawGroups)
    (h : ∀ g ∈ s.entries, g.dirtyBounds = true → g.needsRedraw = true) :
    rebuildDirty (rebuildDirty s) = rebuildDirty s ∧
      ∀ g ∈ (rebuildDirty s).entries, g.needsRedraw = false ∧ g.dirtyBounds = false := by
  constructor
  · apply GUIDrawGroups.ext
    · show ((s.entries.map (fun g => if g.needsRedraw then rebuildGroup g else g)).map
          (fun g => if g.needsRedraw then rebuildGroup g else g)) =
        s.entries.map (fun g => if g.needsRedraw then rebuildGroup g else g)
      rw [List.map_map]
      refine List.map_congr_left (fun g _ => ?_)
      show (if (if g.needsRedraw then rebuildGroup g else g).needsRedraw
          then rebuildGroup (if g.needsRedraw then rebuildGroup g else g)
          else (if g.needsRedraw then rebuildGroup g else g)) =
        (if g.needsRedraw then rebuildGroup g else g)
      by_cases hg : g.needsRedraw = true
      · simp [hg, rebuildGroup_needsRedraw]
      · simp [hg]
    · rfl
  · intro g hg
    obtain ⟨g0, hg0, rfl⟩ := List.mem_map.1 hg
    by_cases hr : g0.needsRedraw = true
    · simp [hr, rebuildGroup_needsRedraw, rebuildGroup_dirtyBounds]
    · have hrf : g0.needsRedraw = false := by revert hr; cases g0.needsRedraw <;> simp
      have hdb : g0.dirtyBounds = false := by
        by_cases hb : g0.dirtyBounds = true
        · exact absurd (h g0 hg0 hb) hr
        · revert hb; cases g0.dirtyBounds <;> simp
      simp [hr, hrf, hdb]

theorem c3_rebuildDirty_idempotent_witness :
    rebuildDirty (rebuildDirty initDrawGroups) = rebuildDirty initDrawGroups ∧
      ∀ g ∈ (rebuildDirty initDrawGroups).entries,
        g.needsRedraw = false ∧ g.dirtyBounds = false :=
  c3_rebuildDirty_idempotent initDrawGroups (by decide)

/-! ### Claim C6 -/

/-- C6: starting from a fully rebuilt state (all flags clear), after
notifyMeshDirty on an element the next rebuildDirty regenerates the meshes of
exactly the group owning that element, leaving its needsRedraw clear again,
and leaves every other group — mesh list included — exactly as it was. -/
theorem c6_rebuild_only_owner (s : GUIDrawGroups) (e : Element)
    (h1 : ∀ g ∈ s.entries, g.needsRedraw = false)
    (h2 : ∀ g ∈ s.entries, g.dirtyBounds = false) :
    rebuildDirty (notifyMeshDirty e s) =
      { s with entries := s.entries.map (fun g =>
          if containsElem e g then { g with meshes := buildMeshes (elemsOf g) } else g) } := by
  apply GUIDrawGroups.ext
  · show ((s.entries.map
        (fun g => if containsElem e g then { g with needsRedraw := true } else g)).map
          (fun g => if g.needsRedraw then rebuildGroup g else g)) =
      s.entries.map (fun g =>
        if containsElem e g then { g with meshes := buildMeshes (elemsOf g) } else g)
    rw [List.map_map]
    refine List.map_congr_left (fun g hg => ?_)
    show (if (if containsElem e g then { g with needsRedraw := true } else g).needsRedraw
        then rebuildGroup (if containsElem e g then { g with needsRedraw := true } else g)
        else (if containsElem e g then { g with needsRedraw := true } else g)) =
      (if containsElem e g then { g with meshes := buildMeshes (elemsOf g) } else g)
    have hnr := h1 g hg
    have hdb := h2 g hg
    by_cases hc : containsElem e g
    · rw [if_pos hc, if_pos hc]
      rcases g with ⟨gid, gdr, gmd, gdb, gnr, gb, gc, gn, gm, gt⟩
      simp only at hnr hdb
      subst hnr
      subst hdb
      rfl
    · rw [if_neg hc, if_neg hc]
      simp [hnr]
  · rfl

theorem c6_rebuild_only_owner_witness :
    rebuildDirty (notifyMeshDirty exElem1 (rebuildDirty (add exElem1 initDrawGroups))) =
      { rebuildDirty (add exElem1 initDrawGroups) with
          entries := (rebuildDirty (add exElem1 initDrawGroups)).entries.map (fun g =>
            if containsElem exElem1 g
            then { g with meshes := buildMeshes (elemsOf g) } else g) } :=
  c6_rebuild_only_owner (rebuildDirty (add exElem1 initDrawGroups)) exElem1
    (by decide) (by decide)

/-! ### Claim C4 -/

/-- C4: add inserts every visible render sub-element of the element into the
single group whose depth range contains the (clamped) element depth — that
group exists and is unique — appending to that group's cachedElements when
the element is cacheable and to nonCachedElements otherwise, and sets the
group's dirtyBounds and needsRedraw flags; in the concrete scenario, adding
the cacheable exElem1 and the non-cacheable exElem2, both at depth 0, yields a
single group whose range covers depth 0, with exElem1 in cachedElements and
exElem2 in nonCachedElements. -/
theorem c4_add_inserts (s : GUIDrawGroups) (e : Element) (h : Invariant s) :
    (∃ i : Fin s.entries.length,
      inRange (s.entries.get i) (clampDepth e).depth ∧
      (∀ j : Fin s.entries.length, inRange (s.entries.get j) (clampDepth e).depth → j = i) ∧
      (add e s).entries = s.entries.set i.val (insertElement (clampDepth e) (s.entries.get i))) ∧
    (∀ g : GUIDrawGroup,
      (insertElement (clampDepth e) g).needsRedraw = true ∧
      (insertElement (clampDepth e) g).dirtyBounds = true ∧
      (insertElement (clampDepth e) g).cachedElements = g.cachedElements ++
        (if e.cacheable then visibleGroupElements (clampDepth e) else []) ∧
      (insertElement (clampDepth e) g).nonCachedElements = g.nonCachedElements ++
        (if e.cacheable then [] else visibleGroupElements (clampDepth e))) ∧
    ((add exElem2 (add exElem1 initDrawGroups)).entries.length = 1 ∧
      inRange ((add exElem2 (add exElem1 initDrawGroups)).entries.headD default) 0 ∧
      ((add exElem2 (add exElem1 initDrawGroups)).entries.headD default).cachedElements =
        [⟨exElem1, 0⟩] ∧
      ((add exElem2 (add exElem1 initDrawGroups)).entries.headD default).nonCachedElements =
        [⟨exElem2, 0⟩]) := by
  refine ⟨?_, ?_, ?_⟩
  · have hex : ∃ i : Fin s.entries.length, inRange (s.entries.get i) (clampDepth e).depth :=
      contiguousFrom_exists 0 s.entries h.1 _ (Nat.zero_le _) (clampDepth_lt e)
    obtain ⟨i, hir, heq⟩ := addAux_spec (clampDepth e) s.entries hex
    refine ⟨i, hir, ?_, ?_⟩
    · exact fun j hj => contiguousFrom_unique 0 s.entries h.1 _ j i hj hir
    · rw [add_entries_of_ne_nil e s (entries_ne_nil_of_invariant s h)]
      exact heq
  · intro g
    by_cases hc : e.cacheable = true
    · have hc2 : (clampDepth e).cacheable = true := hc
      simp [insertElement, hc2, hc]
    · have hc2 : ¬(clampDepth e).cacheable = true := hc
      simp [insertElement, hc2, hc]
  · exact ⟨by decide, by decide, by decide, by decide⟩

theorem c4_add_inserts_witness :
    (add exElem2 (add exElem1 initDrawGroups)).entries.length = 1 ∧
      inRange ((add exElem2 (add exElem1 initDrawGroups)).entries.headD default) 0 ∧
      ((add exElem2 (add exElem1 initDrawGroups)).entries.headD default).cachedElements =
        [⟨exElem1, 0⟩] ∧
      ((add exElem2 (add exElem1 initDrawGroups)).entries.headD default).nonCachedElements =
        [⟨exElem2, 0⟩] :=
  (c4_add_inserts initDrawGroups exElem3 (by decide)).2.2

/-! ### Claim C7 -/

theorem mem_insertDirty (x y : Nat) (l : List Nat) :
    x ∈ insertDirty y l ↔ x ∈ l ∨ x = y := by
  unfold insertDirty
  split
  case isTrue hy =>
    constructor
    · exact Or.inl
    · rintro (hx | rfl)
      · exact hx
      · exact hy
  case isFalse hy => simp [List.mem_append]

theorem nodup_insertDirty (y : Nat) (l : List Nat) (h : l.Nodup) :
    (insertDirty y l).Nodup := by
  unfold insertDirty
  split
  · exact h
  case isFalse hy =>
    rw [List.nodup_append]
    refine ⟨h, List.nodup_singleton y, ?_⟩
    intro a ha hay
    rw [List.mem_singleton] at hay
    subst hay
    exact hy ha

theorem mem_foldl_insertDirty (ys acc : List Nat) (x : Nat) :
    x ∈ ys.foldl (fun a y => insertDirty y a) acc ↔ x ∈ acc ∨ x ∈ ys := by
  induction ys generalizing acc with
  | nil => simp
  | cons y ys ih =>
    rw [List.foldl_cons, ih, mem_insertDirty]
    simp only [List.mem_cons]
    tauto

theorem nodup_foldl_insertDirty (ys acc : List Nat) (h : acc.Nodup) :
    (ys.foldl (fun a y => insertDirty y a) acc).Nodup := by
  induction ys generalizing acc with
  | nil => exact h
  | cons y ys ih => exact ih _ (nodup_insertDirty y acc h)

theorem mem_foldl_dirtier (dirtier : Nat → List Nat) (es acc : List Nat) (x : Nat) :
    x ∈ es.foldl (fun acc2 e => (dirtier e).foldl (fun a y => insertDirty y a) acc2) acc ↔
      x ∈ acc ∨ ∃ e ∈ es, x ∈ dirtier e := by
  induction es generalizing acc with
  | nil => simp
  | cons e es ih =>
    rw [List.foldl_cons, ih, mem_foldl_insertDirty]
    constructor
    · rintro ((hx | hx) | ⟨e2, he2, hx⟩)
      · exact Or.inl hx
      · exact Or.inr ⟨e, List.mem_cons_self _ _, hx⟩
      · exact Or.inr ⟨e2, List.mem_cons_of_mem _ he2, hx⟩
    · rintro (hx | ⟨e2, he2, hx⟩)
      · exact Or.inl (Or.inl hx)
      · rcases List.mem_cons.1 he2 with rfl | he3
        · exact Or.inl (Or.inr hx)
        · exact Or.inr ⟨e2, he3, hx⟩

theorem nodup_foldl_dirtier (dirtier : Nat → List Nat) (es acc : List Nat) (h : acc.Nodup) :
    (es.foldl (fun acc2 e => (dirtier e).foldl (fun a y => insertDirty y a) acc2) acc).Nodup := by
  induction es generalizing acc with
  | nil => exact h
  | cons e es ih => exact ih _ (nodup_foldl_insertDirty _ _ h)

/-- C7: an element inserted into the dirty-content set while the current dirty
set is being processed (x is dirtied by some element of the processed set) is
not processed in the same pass and is not lost: it sits in the live set
afterwards and the next run of the consuming pass processes it exactly once. -/
theorem c7_redirty_next_pass (dirtier dirtier2 : Nat → List Nat) (s : DirtyContents)
    (x : Nat) (hx : x ∉ s.live) (ht : s.temp = [])
    (hd : ∃ e ∈ s.live, x ∈ dirtier e) :
    x ∉ (processPass dirtier s).1 ∧
      x ∈ (processPass dirtier s).2.live ∧
      ((processPass dirtier2 (processPass dirtier s).2).1.count x = 1) := by
  have hmem : x ∈ s.live.foldl
      (fun acc2 e => (dirtier e).foldl (fun a y => insertDirty y a) acc2) s.temp :=
    (mem_foldl_dirtier dirtier s.live s.temp x).2 (Or.inr hd)
  refine ⟨hx, hmem, ?_⟩
  have hnd : (s.live.foldl
      (fun acc2 e => (dirtier e).foldl (fun a y => insertDirty y a) acc2) s.temp).Nodup :=
    nodup_foldl_dirtier dirtier s.live s.temp (by rw [ht]; exact List.nodup_nil)
  exact List.count_eq_one_of_mem hnd hmem

theorem c7_redirty_next_pass_witness :
    5 ∉ (processPass (fun e => if e = 1 then [5] else []) ⟨[1], []⟩).1 ∧
      5 ∈ (processPass (fun e => if e = 1 then [5] else []) ⟨[1], []⟩).2.live ∧
      ((processPass (fun e => if e = 1 then [5] else [])
        (processPass (fun e => if e = 1 then [5] else []) ⟨[1], []⟩).2).1.count 5 = 1) :=
  c7_redirty_next_pass (fun e => if e = 1 then [5] else [])
    (fun e => if e = 1 then [5] else []) ⟨[1], []⟩ 5
    (by decide) rfl ⟨1, by decide, by decide⟩

end BsfGui
